import Mathlib

/-! The logrus stack hook (logrus-stack-hook.go).

A shallow embedding of `LogrusStackHook` and of its three operations
`NewHook`, `Levels` and `Fire`, followed by the properties of `Fire`.

Modelling conventions.

* A Go `string` holding valid UTF-8 is a Lean `String`; a rune is a `Char`.
* `logrus.Level` is `uint32`; levels are natural numbers and are only ever
  compared for equality.
* `logrus.Fields` is `map[string]interface{}`.  An allocated map is a finite
  partial function, modelled by `String → Option Value`; assignment
  `m[k] = v` is `Fields.set`.  `Fire` is the method on an entry that carries
  an allocated map, as the entries built by logrus do.  `FirePtr` is the same
  method on the pointer as Go passes it: the pointer may be nil, the map may
  be the nil map, and a run may end in a panic.
* `stack.Callers` walks the live call stack; it is a parameter
  `Callers : Nat → Stack` of `Fire`.
* The part of the Unicode case table that `unicode.ToLower` consults for
  runes above ASCII is a parameter `caseTable : Char → Char`.
* `logrus.AllLevels` is a parameter of `Levels` and `StandardHook`.
-/

namespace LogrusStack

/-! ## Collaborator types -/

/-- Severity of an entry, `logrus.Level` (an unsigned integer). -/
abbrev Level := Nat

/-- The logrus constant `PanicLevel`. -/
def PanicLevel : Level := 0
/-- The logrus constant `FatalLevel`. -/
def FatalLevel : Level := 1
/-- The logrus constant `ErrorLevel`. -/
def ErrorLevel : Level := 2
/-- The logrus constant `WarnLevel`. -/
def WarnLevel : Level := 3
/-- The logrus constant `InfoLevel`. -/
def InfoLevel : Level := 4
/-- The logrus constant `DebugLevel`. -/
def DebugLevel : Level := 5

/-- One call site, `stack.Frame`. -/
structure Frame where
  File : String
  Line : Int
  Name : String
deriving DecidableEq, Repr

/-- A call stack, innermost frame first: `stack.Stack`, a slice of frames. -/
abbrev Stack := List Frame

/-- A value stored in the field mapping (`interface{}`): a frame, a stack, or
anything else a caller of logrus has put there. -/
inductive Value where
  | frame (f : Frame)
  | stack (s : Stack)
  | other (text : String)
deriving DecidableEq, Repr

/-- The field mapping `logrus.Fields`: key to value, `none` for an absent key. -/
abbrev Fields := String → Option Value

/-- The mapping with no key. -/
def Fields.empty : Fields := fun _ => none

/-- Map assignment `m[key] = v`. -/
def Fields.set (m : Fields) (key : String) (v : Value) : Fields :=
  fun k => if k = key then some v else m k

/-- The part of `logrus.Entry` that a hook can observe. -/
structure Entry where
  Data : Fields
  Level : Level
  Message : String

/-! ## String helpers of the Go standard library -/

/-- Go `unicode.ToLower`: ASCII is handled in place, any other rune goes
through the case table. -/
def unicode.ToLower (caseTable : Char → Char) (r : Char) : Char :=
  if r.toNat ≤ 127 then
    (if 'A'.toNat ≤ r.toNat ∧ r.toNat ≤ 'Z'.toNat then
      Char.ofNat (r.toNat + ('a'.toNat - 'A'.toNat))
    else r)
  else caseTable r

/-- Go `strings.ToLower`: every rune mapped by `unicode.ToLower`. -/
def strings.ToLower (caseTable : Char → Char) (s : String) : String :=
  String.mk (s.data.map (unicode.ToLower caseTable))

/-- Does `sub` occur at the very start of `cs`. -/
def strings.hasPrefixAt : List Char → List Char → Bool
  | _, [] => true
  | [], _ :: _ => false
  | c :: cs, p :: ps => if c = p then strings.hasPrefixAt cs ps else false

/-- Does `sub` occur in `cs` at some offset (the search of `strings.Index`). -/
def strings.indexFrom : List Char → List Char → Bool
  | [], sub => strings.hasPrefixAt [] sub
  | c :: cs, sub =>
    if strings.hasPrefixAt (c :: cs) sub then true else strings.indexFrom cs sub

/-- Go `strings.Contains`. -/
def strings.Contains (s substr : String) : Bool :=
  strings.indexFrom s.data substr.data

/-! ## The hook -/

/-- The hook, `LogrusStackHook`. -/
structure LogrusStackHook where
  CallerLevels : List Level
  StackLevels : List Level
deriving DecidableEq, Repr

/-- The initializer `NewHook`. -/
def NewHook (callerLevels : List Level) (stackLevels : List Level) : LogrusStackHook :=
  { CallerLevels := callerLevels, StackLevels := stackLevels }

/-- The convenience initializer `StandardHook`. -/
def StandardHook (AllLevels : List Level) : LogrusStackHook :=
  NewHook AllLevels [PanicLevel, FatalLevel, ErrorLevel]

/-- The method `Levels`. -/
def Levels (AllLevels : List Level) (_hook : LogrusStackHook) : List Level :=
  AllLevels

/-- The test of line 56 without its negation: the lower-cased file path of the
frame contains the logrus package path. -/
def isLogrusFrame (caseTable : Char → Char) (frame : Frame) : Bool :=
  strings.Contains (strings.ToLower caseTable frame.File) "github.com/sirupsen/logrus"

/-- The loop of lines 54 to 60.  `rest` is what `range _frames` has still to
visit, `idx` the index of its head, `frames` the variable the loop appends to. -/
def Fire.framesLoop (caseTable : Char → Char) (_frames : Stack) :
    List Frame → Nat → Stack → Stack
  | [], _, frames => frames
  | frame :: rest, idx, frames =>
    if !(isLogrusFrame caseTable frame) then
      frames ++ _frames.drop idx
    else
      Fire.framesLoop caseTable _frames rest (idx + 1) frames

/-- The value of `frames` after the loop of lines 54 to 60, for the captured
stack `_frames`: the filtered stack. -/
def Fire.frames (caseTable : Char → Char) (_frames : Stack) : Stack :=
  Fire.framesLoop caseTable _frames _frames 0 []

/-- The loop of lines 64 to 69 over `hook.CallerLevels`; `frames0` is `frames[0]`. -/
def Fire.callerLoop (frames0 : Frame) (entry : Entry) : List Level → Entry
  | [] => entry
  | level :: rest =>
    if entry.Level = level then
      { entry with Data := entry.Data.set "caller" (Value.frame frames0) }
    else
      Fire.callerLoop frames0 entry rest

/-- The loop of lines 72 to 77 over `hook.StackLevels`. -/
def Fire.stackLoop (frames : Stack) (entry : Entry) : List Level → Entry
  | [] => entry
  | level :: rest =>
    if entry.Level = level then
      { entry with Data := entry.Data.set "stack" (Value.stack frames) }
    else
      Fire.stackLoop frames entry rest

/-- What a call of `Fire` leaves behind: the hook, the entry behind the
pointer, and the returned error (`none` is the nil error). -/
structure FireResult where
  hook : LogrusStackHook
  entry : Entry
  err : Option String

/-- The method `Fire`. -/
def Fire (caseTable : Char → Char) (Callers : Nat → Stack)
    (hook : LogrusStackHook) (entry : Entry) : FireResult :=
  let _frames := Callers 2
  let frames := Fire.frames caseTable _frames
  match frames with
  | [] => { hook := hook, entry := entry, err := none }
  | frames0 :: _ =>
    let entry1 := Fire.callerLoop frames0 entry hook.CallerLevels
    let entry2 := Fire.stackLoop frames entry1 hook.StackLevels
    { hook := hook, entry := entry2, err := none }

/-! ## Sample data -/

/-- A frame of application code. -/
def frameA : Frame := { File := "/app/handler.go", Line := 10, Name := "Handle" }
/-- A second frame of application code. -/
def frameB : Frame := { File := "/app/server.go", Line := 20, Name := "Serve" }
/-- A third frame of application code. -/
def frameC : Frame := { File := "/app/main.go", Line := 30, Name := "main" }
/-- A frame inside the logrus package, with the historic capital S. -/
def frameL : Frame :=
  { File := "/go/src/github.com/Sirupsen/logrus/entry.go", Line := 40, Name := "Entry.log" }

/-- A captured stack: two logrus frames, then application code. -/
def sampleCallers : Nat → Stack := fun _ => [frameL, frameL, frameA, frameB, frameC]

/-- A captured stack with nothing but logrus frames. -/
def logrusOnlyCallers : Nat → Stack := fun _ => [frameL, frameL]

/-- A captured stack where application code is entered again from logrus. -/
def nestedCallers : Nat → Stack := fun _ => [frameL, frameA, frameL, frameC]

/-- An entry at the given level with one field set by the application. -/
def sampleEntry (level : Level) : Entry :=
  { Data := Fields.set Fields.empty "user" (Value.other "alice"),
    Level := level, Message := "boom" }

/-- An entry at the given level whose keys "caller" and "stack" already hold
values left by the application. -/
def staleEntry (level : Level) : Entry :=
  { Data := Fields.set (Fields.set Fields.empty "caller" (Value.other "old caller"))
      "stack" (Value.other "old stack"),
    Level := level, Message := "boom" }

/-- An entry at the given level without any field. -/
def bareEntry (level : Level) : Entry :=
  { Data := Fields.empty, Level := level, Message := "boom" }

/-- The map assignment executed by the loop of lines 64 to 69, as a list of
key and value: one assignment when a level of the list equals the level of
the entry, none otherwise. -/
def Fire.callerWrites (frames0 : Frame) (entry : Entry) : List Level → List (String × Value)
  | [] => []
  | level :: rest =>
    if entry.Level = level then
      [("caller", Value.frame frames0)]
    else
      Fire.callerWrites frames0 entry rest

/-- The map assignment executed by the loop of lines 72 to 77, as a list of
key and value. -/
def Fire.stackWrites (frames : Stack) (entry : Entry) : List Level → List (String × Value)
  | [] => []
  | level :: rest =>
    if entry.Level = level then
      [("stack", Value.stack frames)]
    else
      Fire.stackWrites frames entry rest

/-- The assignments to `entry.Data` that one call of `Fire` executes, in
program order. -/
def Fire.writes (caseTable : Char → Char) (Callers : Nat → Stack)
    (hook : LogrusStackHook) (entry : Entry) : List (String × Value) :=
  let _frames := Callers 2
  let frames := Fire.frames caseTable _frames
  match frames with
  | [] => []
  | frames0 :: _ =>
    Fire.callerWrites frames0 entry hook.CallerLevels
      ++ Fire.stackWrites frames
          (Fire.callerLoop frames0 entry hook.CallerLevels) hook.StackLevels

/-- A list of map assignments carried out from left to right. -/
def Fields.setAll (m : Fields) : List (String × Value) → Fields
  | [] => m
  | (key, v) :: rest => Fields.setAll (m.set key v) rest

/-- Is `m` a letter-casing of `marker`: the same length, and at every position
the character of `marker` or its upper-case form. -/
def isCasingOf : List Char → List Char → Bool
  | [], [] => true
  | c :: cs, d :: ds => (decide (c = d) || decide (c = d.toUpper)) && isCasingOf cs ds
  | _, _ => false

/-- A stack walker that answers skip 2 with one stack and any other skip with
another. -/
def skipTwoCallers : Nat → Stack := fun skip => if skip = 2 then [frameA] else [frameB]

/-- A stack walker that differs from `skipTwoCallers` at skip 2 only. -/
def skipTwoOtherCallers : Nat → Stack := fun skip => if skip = 2 then [frameC] else [frameB]

/-- A stack walker that agrees with `skipTwoCallers` at skip 2 only. -/
def skipTwoSameCallers : Nat → Stack := fun skip => if skip = 2 then [frameA] else [frameL, frameC]

/-- An entry as it lies behind the pointer handed to `Fire`; `Data` is `none`
for the nil map. -/
structure RawEntry where
  Data : Option Fields
  Level : Level
  Message : String

/-- An entry with an allocated map, seen as a raw entry. -/
def Entry.toRaw (entry : Entry) : RawEntry :=
  { Data := some entry.Data, Level := entry.Level, Message := entry.Message }

/-- How a call ends: it returns, leaving the entry behind the pointer and the
returned error (`none` is the nil error), or it panics. -/
inductive Outcome where
  | returned (entry : Option RawEntry) (err : Option String)
  | panicked (reason : String)

/-- The loop of lines 64 to 69 on a pointer (`none` is the nil pointer).
Reading `entry.Level` through a nil pointer panics, and so does the assignment
of line 66 into a nil map. -/
def FirePtr.callerLoop (frames0 : Frame) (entry : Option RawEntry) :
    List Level → Except String (Option RawEntry)
  | [] => Except.ok entry
  | level :: rest =>
    match entry with
    | none => Except.error "invalid memory address or nil pointer dereference"
    | some e =>
      if e.Level = level then
        match e.Data with
        | none => Except.error "assignment to entry in nil map"
        | some m =>
          Except.ok (some { e with Data := some (m.set "caller" (Value.frame frames0)) })
      else
        FirePtr.callerLoop frames0 entry rest

/-- The loop of lines 72 to 77 on a pointer, with the same two panics. -/
def FirePtr.stackLoop (frames : Stack) (entry : Option RawEntry) :
    List Level → Except String (Option RawEntry)
  | [] => Except.ok entry
  | level :: rest =>
    match entry with
    | none => Except.error "invalid memory address or nil pointer dereference"
    | some e =>
      if e.Level = level then
        match e.Data with
        | none => Except.error "assignment to entry in nil map"
        | some m =>
          Except.ok (some { e with Data := some (m.set "stack" (Value.stack frames)) })
      else
        FirePtr.stackLoop frames entry rest

/-- The method `Fire` on the pointer it receives, panics included. -/
def FirePtr (caseTable : Char → Char) (Callers : Nat → Stack)
    (hook : LogrusStackHook) (entry : Option RawEntry) : Outcome :=
  let _frames := Callers 2
  let frames := Fire.frames caseTable _frames
  match frames with
  | [] => Outcome.returned entry none
  | frames0 :: _ =>
    match FirePtr.callerLoop frames0 entry hook.CallerLevels with
    | Except.error reason => Outcome.panicked reason
    | Except.ok entry1 =>
      match FirePtr.stackLoop frames entry1 hook.StackLevels with
      | Except.error reason => Outcome.panicked reason
      | Except.ok entry2 => Outcome.returned entry2 none

/-- An entry at the given level whose map is the nil map. -/
def nilMapEntry (level : Level) : RawEntry :=
  { Data := none, Level := level, Message := "boom" }

/-! ## Lemmas on the loops -/

theorem framesLoop_eq (caseTable : Char → Char) (_frames : Stack) :
    ∀ (rest : List Frame) (idx : Nat) (frames : Stack),
      _frames.drop idx = rest →
      Fire.framesLoop caseTable _frames rest idx frames
        = frames ++ rest.dropWhile (isLogrusFrame caseTable) := by
  intro rest
  induction rest with
  | nil => intro idx frames _; simp [Fire.framesLoop]
  | cons frame rest ih =>
    intro idx frames h
    by_cases hf : isLogrusFrame caseTable frame = true
    · have hrest : _frames.drop (idx + 1) = rest := by
        have := congrArg List.tail h
        simpa [List.tail_drop] using this
      simp [Fire.framesLoop, hf, List.dropWhile_cons, ih (idx + 1) frames hrest]
    · simp [Fire.framesLoop, hf, List.dropWhile_cons, h]

theorem frames_eq_dropWhile (caseTable : Char → Char) (s : Stack) :
    Fire.frames caseTable s = s.dropWhile (isLogrusFrame caseTable) := by
  simp [Fire.frames, framesLoop_eq caseTable s s 0 [] (by simp)]

theorem callerLoop_eq (frames0 : Frame) (entry : Entry) (levels : List Level) :
    Fire.callerLoop frames0 entry levels
      = if entry.Level ∈ levels then
          { entry with Data := entry.Data.set "caller" (Value.frame frames0) }
        else entry := by
  induction levels with
  | nil => simp [Fire.callerLoop]
  | cons level rest ih =>
    by_cases h : entry.Level = level
    · simp [Fire.callerLoop, h]
    · simp [Fire.callerLoop, h, ih]

theorem stackLoop_eq (frames : Stack) (entry : Entry) (levels : List Level) :
    Fire.stackLoop frames entry levels
      = if entry.Level ∈ levels then
          { entry with Data := entry.Data.set "stack" (Value.stack frames) }
        else entry := by
  induction levels with
  | nil => simp [Fire.stackLoop]
  | cons level rest ih =>
    by_cases h : entry.Level = level
    · simp [Fire.stackLoop, h]
    · simp [Fire.stackLoop, h, ih]

theorem callerLoop_Level (frames0 : Frame) (entry : Entry) (levels : List Level) :
    (Fire.callerLoop frames0 entry levels).Level = entry.Level := by
  rw [callerLoop_eq]; split <;> rfl

theorem stackLoop_Level (frames : Stack) (entry : Entry) (levels : List Level) :
    (Fire.stackLoop frames entry levels).Level = entry.Level := by
  rw [stackLoop_eq]; split <;> rfl

/-! ## Lemmas on `Fire` -/

theorem Fire_of_nil (caseTable : Char → Char) (Callers : Nat → Stack)
    (hook : LogrusStackHook) (entry : Entry)
    (h : Fire.frames caseTable (Callers 2) = []) :
    Fire caseTable Callers hook entry = { hook := hook, entry := entry, err := none } := by
  simp only [Fire, h]

theorem Fire_of_cons (caseTable : Char → Char) (Callers : Nat → Stack)
    (hook : LogrusStackHook) (entry : Entry) (f : Frame) (rest : Stack)
    (h : Fire.frames caseTable (Callers 2) = f :: rest) :
    Fire caseTable Callers hook entry =
      { hook := hook,
        entry := Fire.stackLoop (f :: rest)
          (Fire.callerLoop f entry hook.CallerLevels) hook.StackLevels,
        err := none } := by
  simp only [Fire, h]

theorem Fire_Data_of_cons (caseTable : Char → Char) (Callers : Nat → Stack)
    (hook : LogrusStackHook) (entry : Entry) (f : Frame) (rest : Stack)
    (h : Fire.frames caseTable (Callers 2) = f :: rest) (k : String) :
    (Fire caseTable Callers hook entry).entry.Data k =
      if k = "stack" ∧ entry.Level ∈ hook.StackLevels then some (Value.stack (f :: rest))
      else if k = "caller" ∧ entry.Level ∈ hook.CallerLevels then some (Value.frame f)
      else entry.Data k := by
  rw [Fire_of_cons caseTable Callers hook entry f rest h]
  simp only [stackLoop_eq, callerLoop_Level, callerLoop_eq]
  by_cases hs : entry.Level ∈ hook.StackLevels <;>
    by_cases hc : entry.Level ∈ hook.CallerLevels <;>
    by_cases k1 : k = "stack" <;>
    by_cases k2 : k = "caller" <;>
    simp [hs, hc, k1, k2, Fields.set]

theorem Fire_Level (caseTable : Char → Char) (Callers : Nat → Stack)
    (hook : LogrusStackHook) (entry : Entry) :
    (Fire caseTable Callers hook entry).entry.Level = entry.Level := by
  cases h : Fire.frames caseTable (Callers 2) with
  | nil => rw [Fire_of_nil caseTable Callers hook entry h]
  | cons f rest =>
    rw [Fire_of_cons caseTable Callers hook entry f rest h]
    simp only [stackLoop_Level, callerLoop_Level]

theorem dropWhile_eq_drop_of_least (p : Frame → Bool) :
    ∀ (s : Stack) (K : Nat),
      (∀ i f, i < K → s[i]? = some f → p f = true) →
      (∃ f, s[K]? = some f ∧ p f = false) →
      s.dropWhile p = s.drop K := by
  intro s
  induction s with
  | nil => intro K _ h; obtain ⟨f, hf, _⟩ := h; simp at hf
  | cons a s ih =>
    intro K hlt hK
    cases K with
    | zero =>
      obtain ⟨f, hf, hp⟩ := hK
      simp at hf
      subst hf
      simp [List.dropWhile_cons, hp]
    | succ k =>
      have ha : p a = true := hlt 0 a (Nat.succ_pos k) (by simp)
      have hlt2 : ∀ i f, i < k → s[i]? = some f → p f = true := by
        intro i f hi hf
        exact hlt (i + 1) f (Nat.succ_lt_succ hi) (by simpa using hf)
      have hK2 : ∃ f, s[k]? = some f ∧ p f = false := by
        obtain ⟨f, hf, hp⟩ := hK
        exact ⟨f, by simpa using hf, hp⟩
      simp [List.dropWhile_cons, ha, ih k hlt2 hK2]

theorem dropWhile_eq_nil_of_all (p : Frame → Bool) (s : Stack)
    (h : ∀ f ∈ s, p f = true) : s.dropWhile p = [] := by
  induction s with
  | nil => rfl
  | cons a s ih =>
    have ha : p a = true := h a (List.mem_cons_self a s)
    simp only [List.dropWhile_cons, ha, if_true]
    exact ih (fun f hf => h f (List.mem_cons_of_mem a hf))

/-! ## Properties of `Fire` and `Levels` -/

/-- C1: the filtered stack computed by Fire is the captured stack from its
first frame that is not a logrus frame onwards.  It equals
`dropWhile isLogrusFrame s`; when `K` is the least index of a frame that is
not a logrus frame it is `s[K..]`, frames unmodified and in order, with
`s[0..K-1]` discarded; and when every frame is a logrus frame it is empty. -/
theorem C1_frames_is_suffix_from_first_non_logrus (caseTable : Char → Char) (s : Stack) :
    Fire.frames caseTable s = s.dropWhile (isLogrusFrame caseTable)
    ∧ (∀ K : Nat,
        (∀ i f, i < K → s[i]? = some f → isLogrusFrame caseTable f = true) →
        (∃ f, s[K]? = some f ∧ isLogrusFrame caseTable f = false) →
        Fire.frames caseTable s = s.drop K)
    ∧ ((∀ f ∈ s, isLogrusFrame caseTable f = true) → Fire.frames caseTable s = []) := by
  refine ⟨frames_eq_dropWhile caseTable s, ?_, ?_⟩
  · intro K hlt hK
    rw [frames_eq_dropWhile]
    exact dropWhile_eq_drop_of_least _ s K hlt hK
  · intro h
    rw [frames_eq_dropWhile]
    exact dropWhile_eq_nil_of_all _ s h

/-- C1 at a concrete stack: two logrus frames then three application frames;
the least index of an application frame is 2 and the filtered stack is the
last three frames. -/
theorem C1_witness :
    Fire.frames id [frameL, frameL, frameA, frameB, frameC] = [frameA, frameB, frameC]
    ∧ Fire.frames id [frameL, frameL, frameA, frameB, frameC]
        = [frameL, frameL, frameA, frameB, frameC].drop 2
    ∧ Fire.frames id [frameL, frameL] = [] :=
  ⟨by decide,
   (C1_frames_is_suffix_from_first_non_logrus id
      [frameL, frameL, frameA, frameB, frameC]).2.1 2
      (by
        intro i f hi hf
        interval_cases i <;> simp at hf <;> subst hf <;> decide)
      ⟨frameA, rfl, by decide⟩,
   (C1_frames_is_suffix_from_first_non_logrus id [frameL, frameL]).2.2
      (by
        intro f hf
        simp at hf
        subst hf
        decide)⟩

/-- C2: when the filtered stack is not empty and the level of the entry is in
CallerLevels, after Fire the key "caller" is present and holds the first frame
of the filtered stack, whatever the key held before. -/
theorem C2_caller_is_first_filtered_frame (caseTable : Char → Char)
    (Callers : Nat → Stack) (hook : LogrusStackHook) (entry : Entry)
    (hne : Fire.frames caseTable (Callers 2) ≠ [])
    (hlevel : entry.Level ∈ hook.CallerLevels) :
    (Fire caseTable Callers hook entry).entry.Data "caller"
      = some (Value.frame ((Fire.frames caseTable (Callers 2)).head hne)) := by
  obtain ⟨f, rest, h⟩ := List.exists_cons_of_ne_nil hne
  have hhead : ∀ (l : Stack) (hl : l ≠ []), l = f :: rest → l.head hl = f := by
    intro l hl e
    subst e
    rfl
  rw [Fire_Data_of_cons caseTable Callers hook entry f rest h, hhead _ hne h]
  simp [hlevel]

/-- C2 at a concrete call: an Error entry whose key "caller" held an old value
gets the first application frame. -/
theorem C2_witness :
    Fire.frames id (sampleCallers 2) ≠ []
    ∧ (staleEntry ErrorLevel).Level ∈ (NewHook [WarnLevel, ErrorLevel] [FatalLevel]).CallerLevels
    ∧ (staleEntry ErrorLevel).Data "caller" = some (Value.other "old caller")
    ∧ (Fire id sampleCallers (NewHook [WarnLevel, ErrorLevel] [FatalLevel])
        (staleEntry ErrorLevel)).entry.Data "caller" = some (Value.frame frameA) :=
  ⟨by decide, by decide, by decide,
   C2_caller_is_first_filtered_frame id sampleCallers
     (NewHook [WarnLevel, ErrorLevel] [FatalLevel]) (staleEntry ErrorLevel)
     (by decide) (by decide)⟩

/-- C3: when the filtered stack is not empty and the level of the entry is in
StackLevels, after Fire the key "stack" is present and holds the whole filtered
stack, same frames in the same order, whatever the key held before. -/
theorem C3_stack_is_filtered_stack (caseTable : Char → Char)
    (Callers : Nat → Stack) (hook : LogrusStackHook) (entry : Entry)
    (hne : Fire.frames caseTable (Callers 2) ≠ [])
    (hlevel : entry.Level ∈ hook.StackLevels) :
    (Fire caseTable Callers hook entry).entry.Data "stack"
      = some (Value.stack (Fire.frames caseTable (Callers 2))) := by
  obtain ⟨f, rest, h⟩ := List.exists_cons_of_ne_nil hne
  rw [Fire_Data_of_cons caseTable Callers hook entry f rest h, h]
  simp [hlevel]

/-- C3 at a concrete call: a Fatal entry whose key "stack" held an old value
gets the three application frames. -/
theorem C3_witness :
    Fire.frames id (sampleCallers 2) ≠ []
    ∧ (staleEntry FatalLevel).Level ∈ (NewHook [ErrorLevel] [PanicLevel, FatalLevel]).StackLevels
    ∧ (staleEntry FatalLevel).Data "stack" = some (Value.other "old stack")
    ∧ (Fire id sampleCallers (NewHook [ErrorLevel] [PanicLevel, FatalLevel])
        (staleEntry FatalLevel)).entry.Data "stack"
        = some (Value.stack [frameA, frameB, frameC]) :=
  ⟨by decide, by decide, by decide,
   C3_stack_is_filtered_stack id sampleCallers
     (NewHook [ErrorLevel] [PanicLevel, FatalLevel]) (staleEntry FatalLevel)
     (by decide) (by decide)⟩

/-- C4: for an entry whose level is in neither CallerLevels nor StackLevels,
Fire leaves the field mapping exactly as it was; and a hook with both lists
empty never changes the field mapping, whatever the level. -/
theorem C4_other_levels_leave_fields_unchanged (caseTable : Char → Char)
    (Callers : Nat → Stack) :
    (∀ (hook : LogrusStackHook) (entry : Entry),
        entry.Level ∉ hook.CallerLevels → entry.Level ∉ hook.StackLevels →
        (Fire caseTable Callers hook entry).entry.Data = entry.Data)
    ∧ (∀ entry : Entry, (Fire caseTable Callers (NewHook [] []) entry).entry.Data = entry.Data) := by
  have key : ∀ (hook : LogrusStackHook) (entry : Entry),
      entry.Level ∉ hook.CallerLevels → entry.Level ∉ hook.StackLevels →
      (Fire caseTable Callers hook entry).entry.Data = entry.Data := by
    intro hook entry hc hs
    cases h : Fire.frames caseTable (Callers 2) with
    | nil => rw [Fire_of_nil caseTable Callers hook entry h]
    | cons f rest =>
      funext k
      rw [Fire_Data_of_cons caseTable Callers hook entry f rest h]
      simp [hc, hs]
  exact ⟨key, fun entry => key (NewHook [] []) entry (by simp [NewHook]) (by simp [NewHook])⟩

/-- C4 at a concrete call: an Info entry under a hook for Error and Fatal, on
a stack with application frames, keeps its field mapping. -/
theorem C4_witness :
    (sampleEntry InfoLevel).Level ∉ (NewHook [ErrorLevel] [FatalLevel]).CallerLevels
    ∧ (sampleEntry InfoLevel).Level ∉ (NewHook [ErrorLevel] [FatalLevel]).StackLevels
    ∧ Fire.frames id (sampleCallers 2) = [frameA, frameB, frameC]
    ∧ (Fire id sampleCallers (NewHook [ErrorLevel] [FatalLevel])
        (sampleEntry InfoLevel)).entry.Data = (sampleEntry InfoLevel).Data :=
  ⟨by decide, by decide, by decide,
   (C4_other_levels_leave_fields_unchanged id sampleCallers).1
     (NewHook [ErrorLevel] [FatalLevel]) (sampleEntry InfoLevel) (by decide) (by decide)⟩

/-- C5: when the captured stack is empty or holds only logrus frames, the
filtered stack is empty and Fire leaves the field mapping unchanged for every
hook configuration; in general Fire leaves the field mapping unchanged
whenever the filtered stack is empty, so a field is written only when the
filtered stack is not empty. -/
theorem C5_no_write_on_empty_filtered_stack (caseTable : Char → Char)
    (Callers : Nat → Stack) (hook : LogrusStackHook) (entry : Entry) :
    ((∀ f ∈ Callers 2, isLogrusFrame caseTable f = true) →
        Fire.frames caseTable (Callers 2) = []
        ∧ (Fire caseTable Callers hook entry).entry.Data = entry.Data)
    ∧ (Callers 2 = [] → (Fire caseTable Callers hook entry).entry.Data = entry.Data)
    ∧ (Fire.frames caseTable (Callers 2) = [] →
        (Fire caseTable Callers hook entry).entry.Data = entry.Data)
    ∧ ((Fire caseTable Callers hook entry).entry.Data ≠ entry.Data →
        Fire.frames caseTable (Callers 2) ≠ []) := by
  have key : Fire.frames caseTable (Callers 2) = [] →
      (Fire caseTable Callers hook entry).entry.Data = entry.Data := by
    intro h
    rw [Fire_of_nil caseTable Callers hook entry h]
  have hall : (∀ f ∈ Callers 2, isLogrusFrame caseTable f = true) →
      Fire.frames caseTable (Callers 2) = [] := by
    intro h
    rw [frames_eq_dropWhile]
    exact dropWhile_eq_nil_of_all _ _ h
  refine ⟨fun h => ⟨hall h, key (hall h)⟩, ?_, key, fun hne h => hne (key h)⟩
  intro h0
  exact key (hall (by simp [h0]))

/-- C5 at a concrete call: on a stack of two logrus frames, an Error entry
under a hook that lists Error in both lists keeps its field mapping. -/
theorem C5_witness :
    (∀ f ∈ logrusOnlyCallers 2, isLogrusFrame id f = true)
    ∧ (sampleEntry ErrorLevel).Level ∈ (NewHook [ErrorLevel] [ErrorLevel]).CallerLevels
    ∧ (sampleEntry ErrorLevel).Level ∈ (NewHook [ErrorLevel] [ErrorLevel]).StackLevels
    ∧ (Fire id logrusOnlyCallers (NewHook [ErrorLevel] [ErrorLevel])
        (sampleEntry ErrorLevel)).entry.Data = (sampleEntry ErrorLevel).Data :=
  ⟨by decide, by decide, by decide,
   ((C5_no_write_on_empty_filtered_stack id logrusOnlyCallers
      (NewHook [ErrorLevel] [ErrorLevel]) (sampleEntry ErrorLevel)).1 (by decide)).2⟩

theorem Fire_err (caseTable : Char → Char) (Callers : Nat → Stack)
    (hook : LogrusStackHook) (entry : Entry) :
    (Fire caseTable Callers hook entry).err = none := by
  cases h : Fire.frames caseTable (Callers 2) with
  | nil => rw [Fire_of_nil caseTable Callers hook entry h]
  | cons f rest => rw [Fire_of_cons caseTable Callers hook entry f rest h]

theorem FirePtr_callerLoop_toRaw (frames0 : Frame) (entry : Entry) (levels : List Level) :
    FirePtr.callerLoop frames0 (some entry.toRaw) levels
      = Except.ok (some (Fire.callerLoop frames0 entry levels).toRaw) := by
  induction levels with
  | nil => rfl
  | cons level rest ih =>
    by_cases h : entry.Level = level
    · simp [FirePtr.callerLoop, Fire.callerLoop, Entry.toRaw, h]
    · have h2 : ¬ entry.toRaw.Level = level := h
      simp only [FirePtr.callerLoop, Fire.callerLoop, h, h2, if_false]
      exact ih

theorem FirePtr_stackLoop_toRaw (frames : Stack) (entry : Entry) (levels : List Level) :
    FirePtr.stackLoop frames (some entry.toRaw) levels
      = Except.ok (some (Fire.stackLoop frames entry levels).toRaw) := by
  induction levels with
  | nil => rfl
  | cons level rest ih =>
    by_cases h : entry.Level = level
    · simp [FirePtr.stackLoop, Fire.stackLoop, Entry.toRaw, h]
    · have h2 : ¬ entry.toRaw.Level = level := h
      simp only [FirePtr.stackLoop, Fire.stackLoop, h, h2, if_false]
      exact ih

theorem FirePtr_toRaw (caseTable : Char → Char) (Callers : Nat → Stack)
    (hook : LogrusStackHook) (entry : Entry) :
    FirePtr caseTable Callers hook (some entry.toRaw)
      = Outcome.returned (some (Fire caseTable Callers hook entry).entry.toRaw) none := by
  cases h : Fire.frames caseTable (Callers 2) with
  | nil =>
    rw [Fire_of_nil caseTable Callers hook entry h]
    simp only [FirePtr, h]
  | cons f rest =>
    rw [Fire_of_cons caseTable Callers hook entry f rest h]
    simp only [FirePtr, h, FirePtr_callerLoop_toRaw, FirePtr_stackLoop_toRaw]

/-- C6, as stated, fails: for an Error entry whose Data is the nil map, under a
hook that lists Error in CallerLevels and on a captured stack with application
frames, the assignment of line 66 panics and Fire returns nothing; the same
happens at line 74 for StackLevels, whatever the case table. -/
theorem C6_counterexample :
    Fire.frames id (sampleCallers 2) = [frameA, frameB, frameC]
    ∧ (nilMapEntry ErrorLevel).Level ∈ (NewHook [ErrorLevel] []).CallerLevels
    ∧ (∀ caseTable : Char → Char,
        FirePtr caseTable sampleCallers (NewHook [ErrorLevel] []) (some (nilMapEntry ErrorLevel))
          = Outcome.panicked "assignment to entry in nil map")
    ∧ (∀ caseTable : Char → Char,
        FirePtr caseTable sampleCallers (NewHook [] [ErrorLevel]) (some (nilMapEntry ErrorLevel))
          = Outcome.panicked "assignment to entry in nil map") :=
  ⟨by decide, by decide, fun _ => rfl, fun _ => rfl⟩

/-- C6, amended: for every hook configuration, every captured stack and every
entry whose Data map is allocated (whatever its level and existing fields),
Fire returns, and returns the nil error; the entry it leaves is the one
computed by `Fire` on the allocated map. -/
theorem C6_Fire_returns_nil_on_allocated_map (caseTable : Char → Char)
    (Callers : Nat → Stack) (hook : LogrusStackHook) (entry : RawEntry) (m : Fields)
    (hdata : entry.Data = some m) :
    FirePtr caseTable Callers hook (some entry)
      = Outcome.returned
          (some (Fire caseTable Callers hook
            { Data := m, Level := entry.Level, Message := entry.Message }).entry.toRaw)
          none := by
  have hraw : entry
      = Entry.toRaw { Data := m, Level := entry.Level, Message := entry.Message } := by
    cases entry with
    | mk d l msg =>
      simp only at hdata
      simp [Entry.toRaw, hdata]
  have key := FirePtr_toRaw caseTable Callers hook
    { Data := m, Level := entry.Level, Message := entry.Message }
  rw [← hraw] at key
  exact key

/-- C6 amended, at concrete calls: an Error entry with an allocated map under
a hook that lists Error in both lists returns the nil error, on a stack with
application frames and on a stack of logrus frames only. -/
theorem C6_witness :
    (sampleEntry ErrorLevel).toRaw.Data = some (sampleEntry ErrorLevel).Data
    ∧ FirePtr id sampleCallers (NewHook [ErrorLevel] [ErrorLevel])
        (some (sampleEntry ErrorLevel).toRaw)
      = Outcome.returned
          (some (Fire id sampleCallers (NewHook [ErrorLevel] [ErrorLevel])
            (sampleEntry ErrorLevel)).entry.toRaw) none
    ∧ FirePtr id logrusOnlyCallers (NewHook [ErrorLevel] [ErrorLevel])
        (some (sampleEntry ErrorLevel).toRaw)
      = Outcome.returned
          (some (Fire id logrusOnlyCallers (NewHook [ErrorLevel] [ErrorLevel])
            (sampleEntry ErrorLevel)).entry.toRaw) none :=
  ⟨rfl,
   C6_Fire_returns_nil_on_allocated_map id sampleCallers (NewHook [ErrorLevel] [ErrorLevel])
     (sampleEntry ErrorLevel).toRaw (sampleEntry ErrorLevel).Data rfl,
   C6_Fire_returns_nil_on_allocated_map id logrusOnlyCallers
     (NewHook [ErrorLevel] [ErrorLevel])
     (sampleEntry ErrorLevel).toRaw (sampleEntry ErrorLevel).Data rfl⟩

/-- C7: the two assignments of Fire are independent.  A level outside
CallerLevels leaves the binding of "caller" as it was, a level outside
StackLevels leaves the binding of "stack" as it was, and a level in both lists
sets both keys in one call when the filtered stack is not empty.  Example: with
CallerLevels = [Error], StackLevels = [Fatal], an entry without fields and a
filtered stack [A, B, C], at Error only "caller" = A is set, at Fatal only
"stack" = [A, B, C] is set and "caller" is absent, at Info nothing is set. -/
theorem C7_assignments_are_independent (caseTable : Char → Char) (Callers : Nat → Stack) :
    (∀ (hook : LogrusStackHook) (entry : Entry), entry.Level ∉ hook.CallerLevels →
        (Fire caseTable Callers hook entry).entry.Data "caller" = entry.Data "caller")
    ∧ (∀ (hook : LogrusStackHook) (entry : Entry), entry.Level ∉ hook.StackLevels →
        (Fire caseTable Callers hook entry).entry.Data "stack" = entry.Data "stack")
    ∧ (∀ (hook : LogrusStackHook) (entry : Entry)
        (hne : Fire.frames caseTable (Callers 2) ≠ []),
        entry.Level ∈ hook.CallerLevels → entry.Level ∈ hook.StackLevels →
        (Fire caseTable Callers hook entry).entry.Data "caller"
            = some (Value.frame ((Fire.frames caseTable (Callers 2)).head hne))
        ∧ (Fire caseTable Callers hook entry).entry.Data "stack"
            = some (Value.stack (Fire.frames caseTable (Callers 2))))
    ∧ (∀ (A B C : Frame) (msg : String), Fire.frames caseTable (Callers 2) = [A, B, C] →
        (Fire caseTable Callers (NewHook [ErrorLevel] [FatalLevel])
            { Data := Fields.empty, Level := ErrorLevel, Message := msg }).entry.Data
          = Fields.set Fields.empty "caller" (Value.frame A)
        ∧ (Fire caseTable Callers (NewHook [ErrorLevel] [FatalLevel])
            { Data := Fields.empty, Level := FatalLevel, Message := msg }).entry.Data
          = Fields.set Fields.empty "stack" (Value.stack [A, B, C])
        ∧ (Fire caseTable Callers (NewHook [ErrorLevel] [FatalLevel])
            { Data := Fields.empty, Level := FatalLevel, Message := msg }).entry.Data "caller"
          = none
        ∧ (Fire caseTable Callers (NewHook [ErrorLevel] [FatalLevel])
            { Data := Fields.empty, Level := InfoLevel, Message := msg }).entry.Data
          = Fields.empty) := by
  refine ⟨?_, ?_, ?_, ?_⟩
  · intro hook entry hc
    cases h : Fire.frames caseTable (Callers 2) with
    | nil => rw [Fire_of_nil caseTable Callers hook entry h]
    | cons f rest =>
      rw [Fire_Data_of_cons caseTable Callers hook entry f rest h]
      simp [hc]
  · intro hook entry hs
    cases h : Fire.frames caseTable (Callers 2) with
    | nil => rw [Fire_of_nil caseTable Callers hook entry h]
    | cons f rest =>
      rw [Fire_Data_of_cons caseTable Callers hook entry f rest h]
      simp [hs]
  · intro hook entry hne hc hs
    obtain ⟨f, rest, h⟩ := List.exists_cons_of_ne_nil hne
    have hhead : ∀ (l : Stack) (hl : l ≠ []), l = f :: rest → l.head hl = f := by
      intro l hl e
      subst e
      rfl
    rw [Fire_Data_of_cons caseTable Callers hook entry f rest h,
      Fire_Data_of_cons caseTable Callers hook entry f rest h, hhead _ hne h, h]
    simp [hc, hs]
  · intro A B C msg h
    refine ⟨?_, ?_, ?_, ?_⟩
    · funext k
      rw [Fire_Data_of_cons caseTable Callers _ _ A [B, C] h]
      simp [NewHook, ErrorLevel, FatalLevel, Fields.set, Fields.empty]
    · funext k
      rw [Fire_Data_of_cons caseTable Callers _ _ A [B, C] h]
      simp [NewHook, ErrorLevel, FatalLevel, Fields.set, Fields.empty]
    · rw [Fire_Data_of_cons caseTable Callers _ _ A [B, C] h]
      simp [NewHook, ErrorLevel, FatalLevel, Fields.empty]
    · funext k
      rw [Fire_Data_of_cons caseTable Callers _ _ A [B, C] h]
      simp [NewHook, ErrorLevel, FatalLevel, InfoLevel, Fields.empty]

/-- C7 at a concrete call: the example of the claim on the stack of two logrus
frames followed by the frames A, B, C, and a Fatal entry with old values that
keeps its old "caller". -/
theorem C7_witness :
    Fire.frames id (sampleCallers 2) = [frameA, frameB, frameC]
    ∧ (Fire id sampleCallers (NewHook [ErrorLevel] [FatalLevel])
        (bareEntry ErrorLevel)).entry.Data
        = Fields.set Fields.empty "caller" (Value.frame frameA)
    ∧ (Fire id sampleCallers (NewHook [ErrorLevel] [FatalLevel])
        (bareEntry FatalLevel)).entry.Data
        = Fields.set Fields.empty "stack" (Value.stack [frameA, frameB, frameC])
    ∧ (Fire id sampleCallers (NewHook [ErrorLevel] [FatalLevel])
        (bareEntry InfoLevel)).entry.Data = Fields.empty
    ∧ (Fire id sampleCallers (NewHook [ErrorLevel] [FatalLevel])
        (staleEntry FatalLevel)).entry.Data "caller" = some (Value.other "old caller") :=
  ⟨by decide,
   ((C7_assignments_are_independent id sampleCallers).2.2.2
      frameA frameB frameC "boom" (by decide)).1,
   ((C7_assignments_are_independent id sampleCallers).2.2.2
      frameA frameB frameC "boom" (by decide)).2.1,
   ((C7_assignments_are_independent id sampleCallers).2.2.2
      frameA frameB frameC "boom" (by decide)).2.2.2,
   (C7_assignments_are_independent id sampleCallers).1
      (NewHook [ErrorLevel] [FatalLevel]) (staleEntry FatalLevel) (by decide)⟩

/-- C8: Fire touches nothing but the keys "caller" and "stack": every other key
has the same binding after Fire as before, the level of the entry is
unchanged, and CallerLevels and StackLevels of the hook are unchanged. -/
theorem C8_only_caller_and_stack_are_touched (caseTable : Char → Char)
    (Callers : Nat → Stack) (hook : LogrusStackHook) (entry : Entry) :
    (∀ k : String, k ≠ "caller" → k ≠ "stack" →
        (Fire caseTable Callers hook entry).entry.Data k = entry.Data k)
    ∧ (Fire caseTable Callers hook entry).entry.Level = entry.Level
    ∧ (Fire caseTable Callers hook entry).hook.CallerLevels = hook.CallerLevels
    ∧ (Fire caseTable Callers hook entry).hook.StackLevels = hook.StackLevels := by
  refine ⟨?_, Fire_Level caseTable Callers hook entry, ?_, ?_⟩
  · intro k hc hs
    cases h : Fire.frames caseTable (Callers 2) with
    | nil => rw [Fire_of_nil caseTable Callers hook entry h]
    | cons f rest =>
      rw [Fire_Data_of_cons caseTable Callers hook entry f rest h]
      simp [hc, hs]
  · cases h : Fire.frames caseTable (Callers 2) with
    | nil => rw [Fire_of_nil caseTable Callers hook entry h]
    | cons f rest => rw [Fire_of_cons caseTable Callers hook entry f rest h]
  · cases h : Fire.frames caseTable (Callers 2) with
    | nil => rw [Fire_of_nil caseTable Callers hook entry h]
    | cons f rest => rw [Fire_of_cons caseTable Callers hook entry f rest h]

/-- C8 at a concrete call: an Error entry under a hook that lists Error in
both lists keeps its key "user", its level and the lists of the hook, while
both "caller" and "stack" are written. -/
theorem C8_witness :
    (Fire id sampleCallers (NewHook [ErrorLevel] [ErrorLevel])
        (sampleEntry ErrorLevel)).entry.Data "user" = some (Value.other "alice")
    ∧ (Fire id sampleCallers (NewHook [ErrorLevel] [ErrorLevel])
        (sampleEntry ErrorLevel)).entry.Data "caller" = some (Value.frame frameA)
    ∧ (Fire id sampleCallers (NewHook [ErrorLevel] [ErrorLevel])
        (sampleEntry ErrorLevel)).entry.Level = ErrorLevel
    ∧ (Fire id sampleCallers (NewHook [ErrorLevel] [ErrorLevel])
        (sampleEntry ErrorLevel)).hook.CallerLevels = [ErrorLevel] :=
  ⟨((C8_only_caller_and_stack_are_touched id sampleCallers
      (NewHook [ErrorLevel] [ErrorLevel]) (sampleEntry ErrorLevel)).1
      "user" (by decide) (by decide)).trans (by decide),
   by decide,
   (C8_only_caller_and_stack_are_touched id sampleCallers
      (NewHook [ErrorLevel] [ErrorLevel]) (sampleEntry ErrorLevel)).2.1,
   (C8_only_caller_and_stack_are_touched id sampleCallers
      (NewHook [ErrorLevel] [ErrorLevel]) (sampleEntry ErrorLevel)).2.2.1⟩

/-- C9, as stated, fails: on a captured stack that enters application code
again from logrus, the "stack" value written for a level of StackLevels holds
a frame whose file path matches the logrus marker, whatever the case table. -/
theorem C9_counterexample :
    (bareEntry ErrorLevel).Level ∈ (NewHook [] [ErrorLevel]).StackLevels
    ∧ nestedCallers 2 = [frameL, frameA, frameL, frameC]
    ∧ (∀ caseTable : Char → Char,
        (Fire caseTable nestedCallers (NewHook [] [ErrorLevel])
          (bareEntry ErrorLevel)).entry.Data "stack"
          = some (Value.stack [frameA, frameL, frameC]))
    ∧ frameL ∈ [frameA, frameL, frameC]
    ∧ (∀ caseTable : Char → Char, isLogrusFrame caseTable frameL = true) :=
  ⟨by decide, rfl, fun _ => rfl, by decide, fun _ => rfl⟩

/-- C9, amended: for a level of StackLevels and a filtered stack that is not
empty, the "stack" value Fire sets is the captured stack without its leading
logrus frames: the captured stack is the dropped frames followed by the
written ones, every dropped frame matches the logrus marker, and the first
written frame does not match it. -/
theorem C9_stack_value_drops_leading_logrus_frames (caseTable : Char → Char)
    (Callers : Nat → Stack) (hook : LogrusStackHook) (entry : Entry)
    (hlevel : entry.Level ∈ hook.StackLevels)
    (hne : Fire.frames caseTable (Callers 2) ≠ []) :
    ∃ (dropped : Stack) (first : Frame) (rest : Stack),
      Callers 2 = dropped ++ first :: rest
      ∧ (Fire caseTable Callers hook entry).entry.Data "stack"
          = some (Value.stack (first :: rest))
      ∧ (∀ f ∈ dropped, isLogrusFrame caseTable f = true)
      ∧ isLogrusFrame caseTable first = false := by
  obtain ⟨f, rest, h⟩ := List.exists_cons_of_ne_nil hne
  have hdw : (Callers 2).dropWhile (isLogrusFrame caseTable) = f :: rest := by
    rw [← frames_eq_dropWhile]; exact h
  refine ⟨(Callers 2).takeWhile (isLogrusFrame caseTable), f, rest, ?_, ?_, ?_, ?_⟩
  · rw [← hdw]; exact (List.takeWhile_append_dropWhile _ _).symm
  · rw [Fire_Data_of_cons caseTable Callers hook entry f rest h]
    simp [hlevel]
  · intro g hg
    exact List.mem_takeWhile_imp hg
  · have := List.head_dropWhile_not (isLogrusFrame caseTable) (Callers 2)
      (by rw [hdw]; exact List.cons_ne_nil _ _)
    simpa [hdw] using this

/-- C9 amended, at a concrete call: on the nested stack the leading logrus
frame is dropped and the written value starts at the application frame. -/
theorem C9_witness :
    (bareEntry ErrorLevel).Level ∈ (NewHook [] [ErrorLevel]).StackLevels
    ∧ Fire.frames id (nestedCallers 2) ≠ []
    ∧ ∃ (dropped : Stack) (first : Frame) (rest : Stack),
      nestedCallers 2 = dropped ++ first :: rest
      ∧ (Fire id nestedCallers (NewHook [] [ErrorLevel])
          (bareEntry ErrorLevel)).entry.Data "stack" = some (Value.stack (first :: rest))
      ∧ (∀ f ∈ dropped, isLogrusFrame id f = true)
      ∧ isLogrusFrame id first = false :=
  ⟨by decide, by decide,
   C9_stack_value_drops_leading_logrus_frames id nestedCallers (NewHook [] [ErrorLevel])
     (bareEntry ErrorLevel) (by decide) (by decide)⟩

/-- C10: Levels returns the list of all logrus levels whatever the hook: the
result is that list for every hook, two hooks always agree, also the hook
with both lists empty, and every logrus level listed in CallerLevels or
StackLevels is among the levels returned. -/
theorem C10_Levels_is_AllLevels (AllLevels : List Level) (hook : LogrusStackHook) :
    Levels AllLevels hook = AllLevels
    ∧ (∀ other : LogrusStackHook, Levels AllLevels other = Levels AllLevels hook)
    ∧ Levels AllLevels (NewHook [] []) = AllLevels
    ∧ (∀ l : Level, l ∈ hook.CallerLevels ∨ l ∈ hook.StackLevels → l ∈ AllLevels →
        l ∈ Levels AllLevels hook) := by
  refine ⟨rfl, fun _ => rfl, rfl, ?_⟩
  intro l _ hl
  exact hl

/-- C10 at a concrete hook: with the six classic logrus levels, a hook for
Error only still observes Error and Info. -/
theorem C10_witness :
    Levels [PanicLevel, FatalLevel, ErrorLevel, WarnLevel, InfoLevel, DebugLevel]
        (NewHook [ErrorLevel] [])
      = [PanicLevel, FatalLevel, ErrorLevel, WarnLevel, InfoLevel, DebugLevel]
    ∧ ErrorLevel ∈ Levels [PanicLevel, FatalLevel, ErrorLevel, WarnLevel, InfoLevel, DebugLevel]
        (NewHook [ErrorLevel] []) :=
  ⟨(C10_Levels_is_AllLevels _ _).1,
   (C10_Levels_is_AllLevels
      [PanicLevel, FatalLevel, ErrorLevel, WarnLevel, InfoLevel, DebugLevel]
      (NewHook [ErrorLevel] [])).2.2.2 ErrorLevel (Or.inl (by decide)) (by decide)⟩

/-! ## Lemmas on the assignments of `Fire` -/

theorem callerWrites_eq (frames0 : Frame) (entry : Entry) (levels : List Level) :
    Fire.callerWrites frames0 entry levels
      = if entry.Level ∈ levels then [("caller", Value.frame frames0)] else [] := by
  induction levels with
  | nil => simp [Fire.callerWrites]
  | cons level rest ih =>
    by_cases h : entry.Level = level
    · simp [Fire.callerWrites, h]
    · simp [Fire.callerWrites, h, ih]

theorem stackWrites_eq (frames : Stack) (entry : Entry) (levels : List Level) :
    Fire.stackWrites frames entry levels
      = if entry.Level ∈ levels then [("stack", Value.stack frames)] else [] := by
  induction levels with
  | nil => simp [Fire.stackWrites]
  | cons level rest ih =>
    by_cases h : entry.Level = level
    · simp [Fire.stackWrites, h]
    · simp [Fire.stackWrites, h, ih]

theorem writes_of_nil (caseTable : Char → Char) (Callers : Nat → Stack)
    (hook : LogrusStackHook) (entry : Entry)
    (h : Fire.frames caseTable (Callers 2) = []) :
    Fire.writes caseTable Callers hook entry = [] := by
  simp only [Fire.writes, h]

theorem writes_of_cons (caseTable : Char → Char) (Callers : Nat → Stack)
    (hook : LogrusStackHook) (entry : Entry) (f : Frame) (rest : Stack)
    (h : Fire.frames caseTable (Callers 2) = f :: rest) :
    Fire.writes caseTable Callers hook entry =
      (if entry.Level ∈ hook.CallerLevels then [("caller", Value.frame f)] else [])
      ++ (if entry.Level ∈ hook.StackLevels then [("stack", Value.stack (f :: rest))]
          else []) := by
  simp only [Fire.writes, h, callerWrites_eq, stackWrites_eq, callerLoop_Level]

theorem mem_writes_caller (caseTable : Char → Char) (Callers : Nat → Stack)
    (hook : LogrusStackHook) (entry : Entry) (v : Value) :
    ("caller", v) ∈ Fire.writes caseTable Callers hook entry ↔
      ∃ f rest, Fire.frames caseTable (Callers 2) = f :: rest
        ∧ entry.Level ∈ hook.CallerLevels ∧ v = Value.frame f := by
  cases h : Fire.frames caseTable (Callers 2) with
  | nil => simp [writes_of_nil caseTable Callers hook entry h]
  | cons f rest =>
    rw [writes_of_cons caseTable Callers hook entry f rest h]
    by_cases hc : entry.Level ∈ hook.CallerLevels <;>
      by_cases hs : entry.Level ∈ hook.StackLevels <;>
      simp [hc, hs]

theorem mem_writes_stack (caseTable : Char → Char) (Callers : Nat → Stack)
    (hook : LogrusStackHook) (entry : Entry) (v : Value) :
    ("stack", v) ∈ Fire.writes caseTable Callers hook entry ↔
      ∃ f rest, Fire.frames caseTable (Callers 2) = f :: rest
        ∧ entry.Level ∈ hook.StackLevels ∧ v = Value.stack (f :: rest) := by
  cases h : Fire.frames caseTable (Callers 2) with
  | nil => simp [writes_of_nil caseTable Callers hook entry h]
  | cons f rest =>
    rw [writes_of_cons caseTable Callers hook entry f rest h]
    have hex : v = Value.stack (f :: rest) ↔
        ∃ g more, (f = g ∧ rest = more) ∧ v = Value.stack (g :: more) := by
      constructor
      · intro hv
        exact ⟨f, rest, ⟨rfl, rfl⟩, hv⟩
      · rintro ⟨g, more, ⟨hg, hmore⟩, hv⟩
        rw [hg, hmore]
        exact hv
    by_cases hc : entry.Level ∈ hook.CallerLevels <;>
      by_cases hs : entry.Level ∈ hook.StackLevels <;>
      simp [hc, hs, hex]

theorem Fire_Data_eq_setAll (caseTable : Char → Char) (Callers : Nat → Stack)
    (hook : LogrusStackHook) (entry : Entry) :
    (Fire caseTable Callers hook entry).entry.Data
      = Fields.setAll entry.Data (Fire.writes caseTable Callers hook entry) := by
  cases h : Fire.frames caseTable (Callers 2) with
  | nil =>
    rw [Fire_of_nil caseTable Callers hook entry h,
      writes_of_nil caseTable Callers hook entry h]
    rfl
  | cons f rest =>
    rw [Fire_of_cons caseTable Callers hook entry f rest h,
      writes_of_cons caseTable Callers hook entry f rest h]
    simp only [stackLoop_eq, callerLoop_Level, callerLoop_eq]
    by_cases hc : entry.Level ∈ hook.CallerLevels <;>
      by_cases hs : entry.Level ∈ hook.StackLevels <;>
      simp [hc, hs, Fields.setAll]

theorem head_of_eq_cons (f : Frame) (rest : Stack) :
    ∀ (l : Stack) (hl : l ≠ []), l = f :: rest → l.head hl = f := by
  intro l hl e
  subst e
  rfl

/-- C11: StandardHook is NewHook applied to all levels and to Panic, Fatal,
Error; NewHook stores its two arguments unchanged.  So under StandardHook and
a filtered stack that is not empty, Fire sets "caller" for an entry at every
level of AllLevels, and sets "stack" exactly when the level of the entry is
Panic, Fatal or Error. -/
theorem C11_StandardHook_levels (AllLevels : List Level) :
    StandardHook AllLevels = NewHook AllLevels [PanicLevel, FatalLevel, ErrorLevel]
    ∧ (∀ c s : List Level, (NewHook c s).CallerLevels = c ∧ (NewHook c s).StackLevels = s)
    ∧ (∀ (caseTable : Char → Char) (Callers : Nat → Stack) (entry : Entry)
        (hne : Fire.frames caseTable (Callers 2) ≠ []),
        (entry.Level ∈ AllLevels →
          (Fire caseTable Callers (StandardHook AllLevels) entry).entry.Data "caller"
            = some (Value.frame ((Fire.frames caseTable (Callers 2)).head hne)))
        ∧ (entry.Level = PanicLevel ∨ entry.Level = FatalLevel ∨ entry.Level = ErrorLevel →
          (Fire caseTable Callers (StandardHook AllLevels) entry).entry.Data "stack"
            = some (Value.stack (Fire.frames caseTable (Callers 2))))
        ∧ (¬ (entry.Level = PanicLevel ∨ entry.Level = FatalLevel ∨ entry.Level = ErrorLevel) →
          (Fire caseTable Callers (StandardHook AllLevels) entry).entry.Data "stack"
            = entry.Data "stack")
        ∧ ((∃ v, ("stack", v) ∈ Fire.writes caseTable Callers (StandardHook AllLevels) entry)
            ↔ (entry.Level = PanicLevel ∨ entry.Level = FatalLevel
                ∨ entry.Level = ErrorLevel))) := by
  refine ⟨rfl, fun _ _ => ⟨rfl, rfl⟩, ?_⟩
  intro caseTable Callers entry hne
  obtain ⟨f, rest, h⟩ := List.exists_cons_of_ne_nil hne
  have hmem : entry.Level ∈ (StandardHook AllLevels).StackLevels ↔
      (entry.Level = PanicLevel ∨ entry.Level = FatalLevel ∨ entry.Level = ErrorLevel) := by
    simp [StandardHook, NewHook]
  refine ⟨?_, ?_, ?_, ?_⟩
  · intro hl
    have hc : entry.Level ∈ (StandardHook AllLevels).CallerLevels := hl
    rw [Fire_Data_of_cons caseTable Callers _ entry f rest h, head_of_eq_cons f rest _ hne h]
    simp [hc]
  · intro hl
    rw [Fire_Data_of_cons caseTable Callers _ entry f rest h, h]
    simp [hmem.2 hl]
  · intro hl
    have hs : entry.Level ∉ (StandardHook AllLevels).StackLevels := fun hin => hl (hmem.1 hin)
    rw [Fire_Data_of_cons caseTable Callers _ entry f rest h]
    simp [hs]
  · constructor
    · rintro ⟨v, hv⟩
      obtain ⟨_, _, _, hin, _⟩ := (mem_writes_stack caseTable Callers _ entry v).1 hv
      exact hmem.1 hin
    · intro hl
      exact ⟨Value.stack (f :: rest),
        (mem_writes_stack caseTable Callers _ entry _).2 ⟨f, rest, h, hmem.2 hl, rfl⟩⟩

/-- C11 at concrete calls under the standard hook over the six classic levels:
an Info entry gets "caller" and keeps "stack" absent, an Error entry gets both. -/
theorem C11_witness :
    Fire.frames id (sampleCallers 2) ≠ []
    ∧ (Fire id sampleCallers
        (StandardHook [PanicLevel, FatalLevel, ErrorLevel, WarnLevel, InfoLevel, DebugLevel])
        (bareEntry InfoLevel)).entry.Data "caller" = some (Value.frame frameA)
    ∧ (Fire id sampleCallers
        (StandardHook [PanicLevel, FatalLevel, ErrorLevel, WarnLevel, InfoLevel, DebugLevel])
        (bareEntry InfoLevel)).entry.Data "stack" = none
    ∧ (Fire id sampleCallers
        (StandardHook [PanicLevel, FatalLevel, ErrorLevel, WarnLevel, InfoLevel, DebugLevel])
        (bareEntry ErrorLevel)).entry.Data "stack"
        = some (Value.stack [frameA, frameB, frameC]) :=
  ⟨by decide,
   ((C11_StandardHook_levels
      [PanicLevel, FatalLevel, ErrorLevel, WarnLevel, InfoLevel, DebugLevel]).2.2
      id sampleCallers (bareEntry InfoLevel) (by decide)).1 (by decide),
   ((C11_StandardHook_levels
      [PanicLevel, FatalLevel, ErrorLevel, WarnLevel, InfoLevel, DebugLevel]).2.2
      id sampleCallers (bareEntry InfoLevel) (by decide)).2.2.1 (by decide),
   ((C11_StandardHook_levels
      [PanicLevel, FatalLevel, ErrorLevel, WarnLevel, InfoLevel, DebugLevel]).2.2
      id sampleCallers (bareEntry ErrorLevel) (by decide)).2.1 (by decide)⟩

/-! ## Lemmas on the string helpers -/

theorem hasPrefixAt_iff :
    ∀ (cs sub : List Char), strings.hasPrefixAt cs sub = true ↔ ∃ post, cs = sub ++ post := by
  intro cs
  induction cs with
  | nil =>
    intro sub
    cases sub with
    | nil => simp [strings.hasPrefixAt]
    | cons p ps => simp [strings.hasPrefixAt]
  | cons c cs ih =>
    intro sub
    cases sub with
    | nil => simp [strings.hasPrefixAt]
    | cons p ps =>
      by_cases hcp : c = p
      · subst hcp
        simp [strings.hasPrefixAt, ih ps]
      · simp [strings.hasPrefixAt, hcp]

theorem indexFrom_iff (sub : List Char) :
    ∀ cs : List Char,
      strings.indexFrom cs sub = true ↔ ∃ pre post, cs = pre ++ sub ++ post := by
  intro cs
  induction cs with
  | nil =>
    rw [strings.indexFrom, hasPrefixAt_iff]
    constructor
    · rintro ⟨post, h⟩
      exact ⟨[], post, by simpa using h⟩
    · rintro ⟨pre, post, h⟩
      have h2 : pre = [] ∧ sub = [] ∧ post = [] := by simpa [and_assoc] using h.symm
      exact ⟨[], by simp [h2.2.1]⟩
  | cons c cs ih =>
    rw [strings.indexFrom]
    constructor
    · intro h
      by_cases hp : strings.hasPrefixAt (c :: cs) sub = true
      · obtain ⟨post, hpost⟩ := (hasPrefixAt_iff _ _).1 hp
        exact ⟨[], post, by simpa using hpost⟩
      · simp only [hp] at h
        obtain ⟨pre, post, hrec⟩ := ih.1 (by simpa using h)
        exact ⟨c :: pre, post, by simp [hrec]⟩
    · rintro ⟨pre, post, h⟩
      cases pre with
      | nil =>
        have hp : strings.hasPrefixAt (c :: cs) sub = true :=
          (hasPrefixAt_iff _ _).2 ⟨post, by simpa using h⟩
        simp [hp]
      | cons q pre =>
        have hcs : cs = pre ++ sub ++ post := by
          have := congrArg List.tail h
          simpa using this
        have hrec : strings.indexFrom cs sub = true := ih.2 ⟨pre, post, hcs⟩
        simp [hrec]

theorem ToLower_ascii (caseTable : Char → Char) (c : Char) (h : c.toNat ≤ 127) :
    unicode.ToLower caseTable c = unicode.ToLower id c := by
  simp [unicode.ToLower, h]

theorem marker_chars_lower :
    ∀ d ∈ "github.com/sirupsen/logrus".data,
      d.toNat ≤ 127 ∧ d.toUpper.toNat ≤ 127
        ∧ unicode.ToLower id d = d ∧ unicode.ToLower id d.toUpper = d := by
  decide

theorem map_ToLower_of_isCasingOf (caseTable : Char → Char) :
    ∀ (m t : List Char), isCasingOf m t = true →
      (∀ d ∈ t, d.toNat ≤ 127 ∧ d.toUpper.toNat ≤ 127
        ∧ unicode.ToLower id d = d ∧ unicode.ToLower id d.toUpper = d) →
      m.map (unicode.ToLower caseTable) = t := by
  intro m
  induction m with
  | nil =>
    intro t h _
    cases t with
    | nil => rfl
    | cons d ds => simp [isCasingOf] at h
  | cons c cs ih =>
    intro t h hgood
    cases t with
    | nil => simp [isCasingOf] at h
    | cons d ds =>
      simp only [isCasingOf, Bool.and_eq_true, Bool.or_eq_true, decide_eq_true_eq] at h
      obtain ⟨hd1, hd2, hd3, hd4⟩ := hgood d (List.mem_cons_self d ds)
      have htail := ih ds h.2 (fun e he => hgood e (List.mem_cons_of_mem d he))
      have hhead : unicode.ToLower caseTable c = d := by
        rcases h.1 with hc | hc
        · rw [hc, ToLower_ascii caseTable d hd1, hd3]
        · rw [hc, ToLower_ascii caseTable d.toUpper hd2, hd4]
      simp [hhead, htail]

theorem isLogrusFrame_iff (caseTable : Char → Char) (frame : Frame) :
    isLogrusFrame caseTable frame = true ↔
      ∃ pre post, (strings.ToLower caseTable frame.File).data
        = pre ++ "github.com/sirupsen/logrus".data ++ post := by
  simp only [isLogrusFrame, strings.Contains]
  exact indexFrom_iff _ _

/-- C12: the logrus test of Fire is a substring match on the lower-cased file
path.  A frame is a logrus frame exactly when the lower-cased form of its file
path contains "github.com/sirupsen/logrus" as a substring; every path that
holds the marker in any letter-casing is classified as a logrus frame, for
example "/go/src/github.com/Sirupsen/logrus/entry.go"; and the classification
depends on the File of the frame only, not on its line or function name. -/
theorem C12_isLogrusFrame_is_lowercase_substring_match (caseTable : Char → Char) :
    (∀ frame : Frame, isLogrusFrame caseTable frame = true ↔
        ∃ pre post, (strings.ToLower caseTable frame.File).data
          = pre ++ "github.com/sirupsen/logrus".data ++ post)
    ∧ (∀ (pre m post : List Char) (line : Int) (name : String),
        isCasingOf m "github.com/sirupsen/logrus".data = true →
        isLogrusFrame caseTable
          { File := String.mk (pre ++ m ++ post), Line := line, Name := name } = true)
    ∧ (∀ (line : Int) (name : String),
        isLogrusFrame caseTable
          { File := "/go/src/github.com/Sirupsen/logrus/entry.go",
            Line := line, Name := name } = true)
    ∧ (∀ f g : Frame, f.File = g.File →
        isLogrusFrame caseTable f = isLogrusFrame caseTable g) := by
  refine ⟨isLogrusFrame_iff caseTable, ?_, ?_, ?_⟩
  · intro pre m post line name hm
    rw [isLogrusFrame_iff]
    refine ⟨pre.map (unicode.ToLower caseTable), post.map (unicode.ToLower caseTable), ?_⟩
    have hmap := map_ToLower_of_isCasingOf caseTable m _ hm marker_chars_lower
    simp [strings.ToLower, hmap]
  · intro line name
    rfl
  · intro f g h
    simp [isLogrusFrame, h]

/-- C12 at concrete frames: a path with the marker in mixed case is a logrus
frame; a path without it is not; line and name play no part. -/
theorem C12_witness :
    isCasingOf "GitHub.com/SIRUPSEN/Logrus".data "github.com/sirupsen/logrus".data = true
    ∧ isLogrusFrame id
        { File := String.mk ("/src/".data ++ "GitHub.com/SIRUPSEN/Logrus".data ++ "/hooks.go".data),
          Line := 7, Name := "Fire" } = true
    ∧ isLogrusFrame id frameA = false
    ∧ isLogrusFrame id { File := frameL.File, Line := 1, Name := "other" }
        = isLogrusFrame id frameL :=
  ⟨by decide,
   (C12_isLogrusFrame_is_lowercase_substring_match id).2.1
      "/src/".data "GitHub.com/SIRUPSEN/Logrus".data "/hooks.go".data 7 "Fire" (by decide),
   by decide,
   (C12_isLogrusFrame_is_lowercase_substring_match id).2.2.2
      { File := frameL.File, Line := 1, Name := "other" } frameL rfl⟩

/-- C13: Fire asks the stack walker for skip 2 and nothing else.  Two stack
walkers that agree at skip 2 give the same result for every hook and every
entry; the result is the one obtained from the walker that answers every skip
with the stack for skip 2; and the answer for skip 2 does reach the result. -/
theorem C13_Fire_reads_Callers_at_two_only (caseTable : Char → Char) :
    (∀ (Callers Callers2 : Nat → Stack) (hook : LogrusStackHook) (entry : Entry),
        Callers 2 = Callers2 2 →
        Fire caseTable Callers hook entry = Fire caseTable Callers2 hook entry)
    ∧ (∀ (Callers : Nat → Stack) (hook : LogrusStackHook) (entry : Entry),
        Fire caseTable Callers hook entry = Fire caseTable (fun _ => Callers 2) hook entry)
    ∧ ((∀ skip, skip ≠ 2 → skipTwoCallers skip = skipTwoOtherCallers skip)
        ∧ (Fire caseTable skipTwoCallers (NewHook [ErrorLevel] [])
            (bareEntry ErrorLevel)).entry.Data "caller"
          ≠ (Fire caseTable skipTwoOtherCallers (NewHook [ErrorLevel] [])
            (bareEntry ErrorLevel)).entry.Data "caller") := by
  refine ⟨?_, ?_, ?_, ?_⟩
  · intro Callers Callers2 hook entry h
    simp only [Fire, h]
  · intro Callers hook entry
    simp only [Fire]
  · intro skip hskip
    simp [skipTwoCallers, skipTwoOtherCallers, hskip]
  · have h1 : (Fire caseTable skipTwoCallers (NewHook [ErrorLevel] [])
        (bareEntry ErrorLevel)).entry.Data "caller" = some (Value.frame frameA) := rfl
    have h2 : (Fire caseTable skipTwoOtherCallers (NewHook [ErrorLevel] [])
        (bareEntry ErrorLevel)).entry.Data "caller" = some (Value.frame frameC) := rfl
    rw [h1, h2]
    decide

/-- C13 at concrete stack walkers: two walkers that agree at skip 2 and
differ elsewhere give the same result. -/
theorem C13_witness :
    skipTwoCallers 2 = skipTwoSameCallers 2
    ∧ skipTwoCallers 0 ≠ skipTwoSameCallers 0
    ∧ Fire id skipTwoCallers (NewHook [ErrorLevel] [FatalLevel]) (sampleEntry ErrorLevel)
        = Fire id skipTwoSameCallers (NewHook [ErrorLevel] [FatalLevel])
            (sampleEntry ErrorLevel) :=
  ⟨by decide, by decide,
   (C13_Fire_reads_Callers_at_two_only id).1 skipTwoCallers skipTwoSameCallers
      (NewHook [ErrorLevel] [FatalLevel]) (sampleEntry ErrorLevel) (by decide)⟩

/-! ## Lemmas for the relational properties -/

theorem frames_cons_split (caseTable : Char → Char) (s : Stack) (f : Frame) (rest : Stack)
    (h : Fire.frames caseTable s = f :: rest) :
    s = s.takeWhile (isLogrusFrame caseTable) ++ f :: rest
    ∧ (∀ g ∈ s.takeWhile (isLogrusFrame caseTable), isLogrusFrame caseTable g = true)
    ∧ isLogrusFrame caseTable f = false := by
  have hdw : s.dropWhile (isLogrusFrame caseTable) = f :: rest := by
    rw [← frames_eq_dropWhile]; exact h
  refine ⟨?_, ?_, ?_⟩
  · rw [← hdw]; exact (List.takeWhile_append_dropWhile _ _).symm
  · intro g hg
    exact List.mem_takeWhile_imp hg
  · have := List.head_dropWhile_not (isLogrusFrame caseTable) s
      (by rw [hdw]; exact List.cons_ne_nil _ _)
    simpa [hdw] using this

theorem Fire_entry_congr (caseTable : Char → Char) (Callers : Nat → Stack)
    (hook1 hook2 : LogrusStackHook) (entry : Entry)
    (hc : entry.Level ∈ hook1.CallerLevels ↔ entry.Level ∈ hook2.CallerLevels)
    (hs : entry.Level ∈ hook1.StackLevels ↔ entry.Level ∈ hook2.StackLevels) :
    (Fire caseTable Callers hook1 entry).entry = (Fire caseTable Callers hook2 entry).entry
    ∧ (Fire caseTable Callers hook1 entry).err = (Fire caseTable Callers hook2 entry).err := by
  cases h : Fire.frames caseTable (Callers 2) with
  | nil =>
    rw [Fire_of_nil caseTable Callers hook1 entry h, Fire_of_nil caseTable Callers hook2 entry h]
    exact ⟨rfl, rfl⟩
  | cons f rest =>
    rw [Fire_of_cons caseTable Callers hook1 entry f rest h,
      Fire_of_cons caseTable Callers hook2 entry f rest h]
    simp only [stackLoop_eq, callerLoop_Level, callerLoop_eq]
    by_cases h1 : entry.Level ∈ hook1.CallerLevels <;>
      by_cases h2 : entry.Level ∈ hook1.StackLevels <;>
      simp [h1, h2, ← hc, ← hs]

/-- C14: CallerLevels and StackLevels behave as sets.  The entry and the
error that Fire leaves depend on each list only through whether the level of
the entry occurs in it; so two hooks whose CallerLevels hold the same levels
and whose StackLevels hold the same levels, in any order and with any
repetition, give the same field mapping and the same return value. -/
theorem C14_level_lists_behave_as_sets (caseTable : Char → Char) (Callers : Nat → Stack) :
    (∀ (hook1 hook2 : LogrusStackHook) (entry : Entry),
        (entry.Level ∈ hook1.CallerLevels ↔ entry.Level ∈ hook2.CallerLevels) →
        (entry.Level ∈ hook1.StackLevels ↔ entry.Level ∈ hook2.StackLevels) →
        (Fire caseTable Callers hook1 entry).entry.Data
            = (Fire caseTable Callers hook2 entry).entry.Data
        ∧ (Fire caseTable Callers hook1 entry).err = (Fire caseTable Callers hook2 entry).err)
    ∧ (∀ (hook1 hook2 : LogrusStackHook) (entry : Entry),
        (∀ l, l ∈ hook1.CallerLevels ↔ l ∈ hook2.CallerLevels) →
        (∀ l, l ∈ hook1.StackLevels ↔ l ∈ hook2.StackLevels) →
        (Fire caseTable Callers hook1 entry).entry.Data
            = (Fire caseTable Callers hook2 entry).entry.Data
        ∧ (Fire caseTable Callers hook1 entry).err
            = (Fire caseTable Callers hook2 entry).err) := by
  constructor
  · intro hook1 hook2 entry hc hs
    obtain ⟨he, herr⟩ := Fire_entry_congr caseTable Callers hook1 hook2 entry hc hs
    exact ⟨by rw [he], herr⟩
  · intro hook1 hook2 entry hc hs
    obtain ⟨he, herr⟩ :=
      Fire_entry_congr caseTable Callers hook1 hook2 entry (hc entry.Level) (hs entry.Level)
    exact ⟨by rw [he], herr⟩

/-- C14 at concrete hooks: lists that differ in order and repetition give the
same field mapping and the same error. -/
theorem C14_witness :
    (∀ l, l ∈ (NewHook [ErrorLevel, WarnLevel, ErrorLevel] [FatalLevel]).CallerLevels
        ↔ l ∈ (NewHook [WarnLevel, ErrorLevel] [FatalLevel, FatalLevel]).CallerLevels)
    ∧ (∀ l, l ∈ (NewHook [ErrorLevel, WarnLevel, ErrorLevel] [FatalLevel]).StackLevels
        ↔ l ∈ (NewHook [WarnLevel, ErrorLevel] [FatalLevel, FatalLevel]).StackLevels)
    ∧ (Fire id sampleCallers (NewHook [ErrorLevel, WarnLevel, ErrorLevel] [FatalLevel])
          (sampleEntry ErrorLevel)).entry.Data
        = (Fire id sampleCallers (NewHook [WarnLevel, ErrorLevel] [FatalLevel, FatalLevel])
          (sampleEntry ErrorLevel)).entry.Data
    ∧ (Fire id sampleCallers (NewHook [ErrorLevel, WarnLevel, ErrorLevel] [FatalLevel])
          (sampleEntry ErrorLevel)).err
        = (Fire id sampleCallers (NewHook [WarnLevel, ErrorLevel] [FatalLevel, FatalLevel])
          (sampleEntry ErrorLevel)).err :=
  ⟨by intro l; simp [NewHook]; tauto,
   by intro l; simp [NewHook],
   ((C14_level_lists_behave_as_sets id sampleCallers).2
      (NewHook [ErrorLevel, WarnLevel, ErrorLevel] [FatalLevel])
      (NewHook [WarnLevel, ErrorLevel] [FatalLevel, FatalLevel]) (sampleEntry ErrorLevel)
      (by intro l; simp [NewHook]; tauto) (by intro l; simp [NewHook])).1,
   ((C14_level_lists_behave_as_sets id sampleCallers).2
      (NewHook [ErrorLevel, WarnLevel, ErrorLevel] [FatalLevel])
      (NewHook [WarnLevel, ErrorLevel] [FatalLevel, FatalLevel]) (sampleEntry ErrorLevel)
      (by intro l; simp [NewHook]; tauto) (by intro l; simp [NewHook])).2⟩

/-- C15: every value Fire writes is anchored at application code.  The field
mapping after Fire is the one before with the assignments of `Fire.writes`
applied.  Whenever "stack" is written, the written sequence is not empty and
its first frame is not a logrus frame; whenever "caller" is written, that
frame is not a logrus frame and every frame before it in the captured stack
is a logrus frame; whenever both are written in one call, "caller" is the
first element of "stack". -/
theorem C15_written_values_start_at_application_code (caseTable : Char → Char)
    (Callers : Nat → Stack) (hook : LogrusStackHook) (entry : Entry) :
    (Fire caseTable Callers hook entry).entry.Data
        = Fields.setAll entry.Data (Fire.writes caseTable Callers hook entry)
    ∧ (∀ v, ("stack", v) ∈ Fire.writes caseTable Callers hook entry →
        ∃ first rest, v = Value.stack (first :: rest)
          ∧ isLogrusFrame caseTable first = false)
    ∧ (∀ v, ("caller", v) ∈ Fire.writes caseTable Callers hook entry →
        ∃ before f after, v = Value.frame f
          ∧ Callers 2 = before ++ f :: after
          ∧ (∀ g ∈ before, isLogrusFrame caseTable g = true)
          ∧ isLogrusFrame caseTable f = false)
    ∧ (∀ vc vs, ("caller", vc) ∈ Fire.writes caseTable Callers hook entry →
        ("stack", vs) ∈ Fire.writes caseTable Callers hook entry →
        ∃ f rest, vc = Value.frame f ∧ vs = Value.stack (f :: rest)) := by
  refine ⟨Fire_Data_eq_setAll caseTable Callers hook entry, ?_, ?_, ?_⟩
  · intro v hv
    obtain ⟨f, rest, h, _, hval⟩ := (mem_writes_stack caseTable Callers hook entry v).1 hv
    exact ⟨f, rest, hval, (frames_cons_split caseTable _ f rest h).2.2⟩
  · intro v hv
    obtain ⟨f, rest, h, _, hval⟩ := (mem_writes_caller caseTable Callers hook entry v).1 hv
    obtain ⟨hsplit, hpre, hf⟩ := frames_cons_split caseTable _ f rest h
    exact ⟨_, f, rest, hval, hsplit, hpre, hf⟩
  · intro vc vs hc hs
    obtain ⟨f, rest, h, _, hvc⟩ := (mem_writes_caller caseTable Callers hook entry vc).1 hc
    obtain ⟨g, more, h2, _, hvs⟩ := (mem_writes_stack caseTable Callers hook entry vs).1 hs
    rw [h] at h2
    obtain ⟨hfg, hrest⟩ := List.cons.inj h2
    exact ⟨f, rest, hvc, by rw [hvs, hfg, hrest]⟩

/-- C15 at a concrete call: on the stack that enters application code again
from logrus, an Error entry under a hook that lists Error twice gets "caller"
and "stack" written, both starting at the first application frame. -/
theorem C15_witness :
    Fire.writes id nestedCallers (NewHook [ErrorLevel] [ErrorLevel]) (bareEntry ErrorLevel)
      = [("caller", Value.frame frameA), ("stack", Value.stack [frameA, frameL, frameC])]
    ∧ (∃ first rest, Value.stack [frameA, frameL, frameC] = Value.stack (first :: rest)
        ∧ isLogrusFrame id first = false)
    ∧ (∃ f rest, Value.frame frameA = Value.frame f
        ∧ Value.stack [frameA, frameL, frameC] = Value.stack (f :: rest)) :=
  ⟨by decide,
   (C15_written_values_start_at_application_code id nestedCallers
      (NewHook [ErrorLevel] [ErrorLevel]) (bareEntry ErrorLevel)).2.1 _ (by decide),
   (C15_written_values_start_at_application_code id nestedCallers
      (NewHook [ErrorLevel] [ErrorLevel]) (bareEntry ErrorLevel)).2.2.2 _ _
      (by decide) (by decide)⟩

/-- C16: the boundary filter is idempotent, and so is Fire for a fixed
captured stack: filtering the filtered stack gives the filtered stack, and
applying Fire a second time with the same stack walker to the entry left by
the first call gives the same field mapping as the first call. -/
theorem C16_filter_and_Fire_are_idempotent (caseTable : Char → Char) :
    (∀ s : Stack,
        Fire.frames caseTable (Fire.frames caseTable s) = Fire.frames caseTable s)
    ∧ (∀ (Callers : Nat → Stack) (hook : LogrusStackHook) (entry : Entry),
        (Fire caseTable Callers hook
            (Fire caseTable Callers hook entry).entry).entry.Data
          = (Fire caseTable Callers hook entry).entry.Data) := by
  constructor
  · intro s
    simp only [frames_eq_dropWhile, List.dropWhile_idempotent]
  · intro Callers hook entry
    cases h : Fire.frames caseTable (Callers 2) with
    | nil =>
      rw [Fire_of_nil caseTable Callers hook entry h, Fire_of_nil caseTable Callers hook entry h]
    | cons f rest =>
      funext k
      rw [Fire_Data_of_cons caseTable Callers hook _ f rest h, Fire_Level,
        Fire_Data_of_cons caseTable Callers hook entry f rest h]
      by_cases hs : k = "stack" ∧ entry.Level ∈ hook.StackLevels
      · simp [hs]
      · by_cases hc : k = "caller" ∧ entry.Level ∈ hook.CallerLevels
        · simp [hs, hc]
        · simp [hs, hc]

/-- C16 at a concrete call: the filtered sample stack filters to itself, and a
second Fire on an Error entry leaves the same "caller" and "stack". -/
theorem C16_witness :
    Fire.frames id (Fire.frames id [frameL, frameA, frameL, frameC]) = [frameA, frameL, frameC]
    ∧ (Fire id nestedCallers (NewHook [ErrorLevel] [ErrorLevel])
        (Fire id nestedCallers (NewHook [ErrorLevel] [ErrorLevel])
          (staleEntry ErrorLevel)).entry).entry.Data
      = (Fire id nestedCallers (NewHook [ErrorLevel] [ErrorLevel])
          (staleEntry ErrorLevel)).entry.Data :=
  ⟨((C16_filter_and_Fire_are_idempotent id).1 [frameL, frameA, frameL, frameC]).trans
      (by decide),
   (C16_filter_and_Fire_are_idempotent id).2 nestedCallers
      (NewHook [ErrorLevel] [ErrorLevel]) (staleEntry ErrorLevel)⟩

end LogrusStack
